import Mathlib

/-!
Shallow embedding of `Fatorin/pvpgn-hash-rs` (`src/lib.rs`), a bespoke
SHA-1-derived password hash.  Machine integers (`u32`, `u8`) are modelled as
`Nat` with explicit `% 2^32` / `% 256` where the Rust code wraps; the seek
based cursor access of `safe_hash` is modelled as direct word indexing, the
buffer being a function from word index to 32-bit word value.
-/

set_option maxRecDepth 1000000

deriving instance DecidableEq for Except

namespace PvpgnHash

/-- 32-bit wrapping addition (Rust `u32::wrapping_add`). -/
def add32 (x y : Nat) : Nat := (x + y) % 2^32

/-- 32-bit wrapping subtraction (Rust `u32::wrapping_sub`), for `y ≤ 2^32`. -/
def sub32 (x y : Nat) : Nat := (x + (2^32 - y)) % 2^32

/-- `fn rol(val, shift)` from src/lib.rs: the shift is masked to 0..31, then
the result is the OR of `val.wrapping_shr(0x20 - shift)` (Rust masks the
shift amount of `wrapping_shr` mod 32 again) and `val.wrapping_shl(shift)`
(the low 32 bits of the left shift). -/
def rol (val shift : Nat) : Nat :=
  let s := shift &&& 0x1f
  (val >>> ((0x20 - s) &&& 0x1f)) ||| ((val <<< s) % 2^32)

/-- Byte `j` of the 1024-byte scratch buffer right after
`cursor.write(&input)`: the input byte when `j < input.length`, else the
zero fill of `vec![0; 1024]`. -/
def padByte (input : List Nat) (j : Nat) : Nat := input.getD j 0

/-- Little-endian 32-bit word `i` of the loaded scratch buffer
(`cursor.read_u32::<LittleEndian>()` at byte offset `4*i`). -/
def loadWord (input : List Nat) (i : Nat) : Nat :=
  padByte input (4*i) + 2^8 * padByte input (4*i+1) +
    2^16 * padByte input (4*i+2) + 2^24 * padByte input (4*i+3)

/-- The 1024-byte scratch buffer viewed as its 256 little-endian 32-bit
words, right after `cursor.write(&input)`. -/
def loadBuffer (input : List Nat) : List Nat :=
  (List.range 256).map (loadWord input)

/-- Word `i` of a word buffer (out-of-range reads never happen in the
modelled code: every accessed index is at most 79 in a 256-word buffer). -/
def wordAt (w : List Nat) (i : Nat) : Nat := w.getD i 0

/-- One iteration of the expansion loop of `safe_hash` (loop index `i`):
read words `i`, `i+2`, `i+8`, `i+13` of the current buffer (the seek
offsets `Start(i*4)`, `+4`, `+20`, `+16` land exactly there), XOR them in
the code's order, mask with `0x1f`, and overwrite word `i+16` with
`rol(1, shift_val)`. -/
def expandStep (w : List Nat) (i : Nat) : List Nat :=
  let shift_val := (wordAt w i ^^^ wordAt w (i+8) ^^^ wordAt w (i+2) ^^^ wordAt w (i+13)) &&& 0x1f
  w.set (i+16) (rol 1 shift_val)

/-- The buffer after the first `n` iterations of the expansion loop
(`for i in 0..64`), iterations executed in ascending order of `i`. -/
def expandN (w : List Nat) : Nat → List Nat
  | 0 => w
  | n+1 => expandStep (expandN w n) n

/-- The five accumulators of `safe_hash` plus the helper variable `g`. -/
structure HState where
  a : Nat
  b : Nat
  c : Nat
  d : Nat
  e : Nat
  g : Nat
deriving Repr, DecidableEq

/-- Initial accumulator values of `safe_hash` (`g` starts at 0). -/
def initState : HState := ⟨0x67452301, 0xefcdab89, 0x98badcfe, 0x10325476, 0xc3d2e1f0, 0⟩

/-- One iteration of the first compression loop of `safe_hash`:
`g = temp + rol(a,5) + e + ((b & c) | (!b & d)) + 0x5A827999` (wrapping,
`!b` being the u32 complement `b ^ 0xffffffff`), then
`e = d; d = c; c = rol(b,30); b = a; a = g`. -/
def round1 (s : HState) (w : Nat) : HState :=
  let g := add32 (add32 (add32 (add32 w (rol s.a 5)) s.e)
      ((s.b &&& s.c) ||| ((s.b ^^^ 0xffffffff) &&& s.d))) 0x5A827999
  ⟨g, s.a, rol s.b 30, s.c, s.d, g⟩

/-- One iteration of the second compression loop of `safe_hash`:
`g = (d ^ c ^ b) + e + rol(g,5) + temp + 0x6ed9eba1` (wrapping), then the
same accumulator rotation. -/
def round2 (s : HState) (w : Nat) : HState :=
  let g := add32 (add32 (add32 (add32 (s.d ^^^ s.c ^^^ s.b) s.e) (rol s.g 5)) w) 0x6ed9eba1
  ⟨g, s.a, rol s.b 30, s.c, s.d, g⟩

/-- One iteration of the third compression loop of `safe_hash`:
`g = temp + rol(g,5) + e + ((c & b) | (d & c) | (d & b))` then a wrapping
subtraction of `0x70E44324`, then the same accumulator rotation. -/
def round3 (s : HState) (w : Nat) : HState :=
  let g := sub32 (add32 (add32 (add32 w (rol s.g 5)) s.e)
      ((s.c &&& s.b) ||| (s.d &&& s.c) ||| (s.d &&& s.b))) 0x70E44324
  ⟨g, s.a, rol s.b 30, s.c, s.d, g⟩

/-- One iteration of the fourth compression loop of `safe_hash`:
`g = (d ^ c ^ b) + e + rol(g,5) + temp` then a wrapping subtraction of
`0x359d3e2a`, then the same accumulator rotation. -/
def round4 (s : HState) (w : Nat) : HState :=
  let g := sub32 (add32 (add32 (add32 (s.d ^^^ s.c ^^^ s.b) s.e) (rol s.g 5)) w) 0x359d3e2a
  ⟨g, s.a, rol s.b 30, s.c, s.d, g⟩

/-- Run `n` iterations of a compression loop, consuming the sequential
words `w k, w (k+1), ...` (the cursor reads the buffer sequentially from
word `k`). -/
def iterRounds (r : HState → Nat → HState) (w : Nat → Nat) : Nat → Nat → HState → HState
  | _, 0, s => s
  | k, n+1, s => iterRounds r w (k+1) n (r s (w k))

/-- The four 20-iteration compression loops of `safe_hash`, reading buffer
words 0..79 sequentially starting from `seek(Start(0))`. -/
def compress (w : Nat → Nat) : HState :=
  iterRounds round4 w 60 20
    (iterRounds round3 w 40 20
      (iterRounds round2 w 20 20
        (iterRounds round1 w 0 20 initState)))

/-- Big-endian serialization of a 32-bit word
(`result.write_u32::<BigEndian>`): four bytes, most significant first. -/
def word_be_bytes (x : Nat) : List Nat :=
  [x / 2^24 % 256, x / 2^16 % 256, x / 2^8 % 256, x % 256]

/-- `fn safe_hash` of src/lib.rs: load the input into the zero-filled
1024-byte buffer, run the expansion loop 64 times, run the 80 compression
iterations, add the initialization constants back into the accumulators
(wrapping) and serialize `a,b,c,d,e` big-endian into 20 bytes.  For inputs
of length ≤ 1024 every cursor operation of the Rust code succeeds, so the
function is modelled as total. -/
def safe_hash (input : List Nat) : List Nat :=
  let w := expandN (loadBuffer input) 64
  let s := compress (wordAt w)
  word_be_bytes (add32 s.a 0x67452301) ++ word_be_bytes (add32 s.b 0xefcdab89) ++
    word_be_bytes (add32 s.c 0x98badcfe) ++ word_be_bytes (add32 s.d 0x10325476) ++
      word_be_bytes (add32 s.e 0xc3d2e1f0)

/-- The single error kind the crate's entry points produce
(`std::io::ErrorKind::InvalidData`). -/
inductive ErrorKind where
  | invalidData
deriving Repr, DecidableEq

/-- The ASCII part of Unicode lowercasing: bytes 0x41..0x5A map 32
higher, every other single byte is kept.  On pure-ASCII text this is
exactly what Rust `str::to_lowercase` does. -/
def toLowerByte (b : Nat) : Nat := if 65 ≤ b ∧ b ≤ 90 then b + 32 else b

/-- The ASCII part of Unicode uppercasing: bytes 0x61..0x7A map 32
lower.  On pure-ASCII text this is exactly what `str::to_uppercase`
does. -/
def toUpperByte (b : Nat) : Nat := if 97 ≤ b ∧ b ≤ 122 then b - 32 else b

/-- Consume one scalar from the front of a UTF-8 byte sequence and emit
its lowercase form: the KELVIN SIGN U+212A (bytes E2 84 AA) lowercases to
the 1-byte `k` (its Unicode mapping — byte length shrinks), an ASCII byte
folds with `toLowerByte`, any other byte is copied. -/
def lowerChunk (l : List Nat) : List Nat × List Nat :=
  match l with
  | [] => ([], [])
  | 0xE2 :: 0x84 :: 0xAA :: rest => ([0x6B], rest)
  | b :: rest => ([toLowerByte b], rest)

/-- Iterate `lowerChunk` with explicit fuel (each chunk consumes at least
one byte, so fuel at least the list length never runs out). -/
def lowerFuel : Nat → List Nat → List Nat
  | _, [] => []
  | 0, b :: rest => b :: rest
  | n+1, b :: rest => (lowerChunk (b :: rest)).1 ++ lowerFuel n (lowerChunk (b :: rest)).2

/-- Modelled from the spec: Rust `str::to_lowercase` ("standard
case-folding … length in bytes may change for some non-ASCII scripts",
external std code, not in src/).  The model is exact on ASCII and carries
the one non-ASCII mapping exercised below (U+212A KELVIN SIGN → `k`,
which shrinks the byte length as the spec contemplates); all other
non-ASCII scalars fold to themselves.  Theorems proved positively from
this model restrict their inputs to ASCII, where it coincides with std
byte for byte. -/
def toLowercase (s : List Nat) : List Nat := lowerFuel s.length s

/-- Consume one scalar from the front of a UTF-8 byte sequence and emit
its uppercase form: U+00DF `ß` (bytes C3 9F) uppercases to the two-byte
`SS` (Rust's documented special casing), an ASCII byte folds with
`toUpperByte`, any other byte is copied. -/
def upperChunk (l : List Nat) : List Nat × List Nat :=
  match l with
  | [] => ([], [])
  | 0xC3 :: 0x9F :: rest => ([0x53, 0x53], rest)
  | b :: rest => ([toUpperByte b], rest)

/-- Iterate `upperChunk` with explicit fuel. -/
def upperFuel : Nat → List Nat → List Nat
  | _, [] => []
  | 0, b :: rest => b :: rest
  | n+1, b :: rest => (upperChunk (b :: rest)).1 ++ upperFuel n (upperChunk (b :: rest)).2

/-- Modelled from the spec: `S.upper()` of the spec's case-invariance
property (Rust `str::to_uppercase`, external std code, not in src/).
Exact on ASCII; carries the special casing `ß` → `SS` exercised below;
all other non-ASCII scalars fold to themselves. -/
def toUppercase (s : List Nat) : List Nat := upperFuel s.length s

/-- 21 copies of the UTF-8 bytes of U+212A KELVIN SIGN followed by `a`:
a valid 64-byte input whose lowercased form is the 22-byte `k`*21 ++ `a`
(standard case-folding changes the byte length, as the spec notes). -/
def kelvin21a : List Nat := (List.replicate 21 ([0xE2, 0x84, 0xAA] : List Nat)).flatten ++ [0x61]

/-- Is byte `c` inside the closed range `[lo, hi]`? -/
def contIn (lo hi c : Nat) : Bool := decide (lo ≤ c) && decide (c ≤ hi)

/-- Is `b` a UTF-8 continuation byte (0x80..0xBF)? -/
def isCont (b : Nat) : Bool := contIn 0x80 0xBF b

/-- Consume one UTF-8 encoded scalar value from the front of a byte
sequence: `some rest` on success, `none` on an invalid prefix.  ASCII
bytes stand alone; 2-byte leads are 0xC2..0xDF; 3-byte leads 0xE0..0xEF
with the overlong/surrogate restrictions on the first continuation byte
for 0xE0 and 0xED; 4-byte leads 0xF0..0xF4 with the corresponding
restrictions for 0xF0 and 0xF4. -/
def utf8Chunk (l : List Nat) : Option (List Nat) :=
  match l with
  | [] => none
  | b :: rest =>
    if b ≤ 0x7F then some rest
    else if 0xC2 ≤ b ∧ b ≤ 0xDF then
      match rest with
      | c :: r => if isCont c then some r else none
      | [] => none
    else if 0xE0 ≤ b ∧ b ≤ 0xEF then
      match rest with
      | c :: c2 :: r =>
        if ((if b = 0xE0 then contIn 0xA0 0xBF c
             else if b = 0xED then contIn 0x80 0x9F c
             else isCont c) && isCont c2) = true then some r else none
      | _ => none
    else if 0xF0 ≤ b ∧ b ≤ 0xF4 then
      match rest with
      | c :: c2 :: c3 :: r =>
        if ((if b = 0xF0 then contIn 0x90 0xBF c
             else if b = 0xF4 then contIn 0x80 0x8F c
             else isCont c) && isCont c2 && isCont c3) = true then some r else none
      | _ => none
    else none

/-- Iterate `utf8Chunk` with explicit fuel (each chunk consumes at least
one byte, so fuel at least the list length never runs out). -/
def utf8ValidFuel : Nat → List Nat → Bool
  | _, [] => true
  | 0, _ :: _ => false
  | n+1, b :: rest =>
    match utf8Chunk (b :: rest) with
    | some r => utf8ValidFuel n r
    | none => false

/-- UTF-8 validity of a byte sequence (`std::str::from_utf8` succeeds):
the whole sequence decomposes into valid encoded scalar values. -/
def utf8Valid (l : List Nat) : Bool := utf8ValidFuel l.length l

/-- `fn calculate_hash` of src/lib.rs: lowercase the input string (given
here by its UTF-8 bytes), reject a lowercased byte length of 0 or more
than 1024, else hash.  `safe_hash` cannot fail on such inputs, so the
`map_err` arm is never taken. -/
def calculate_hash (data : List Nat) : Except ErrorKind (List Nat) :=
  let utf8_bytes := toLowercase data
  if utf8_bytes.length > 1024 ∨ utf8_bytes.length = 0 then .error .invalidData
  else .ok (safe_hash utf8_bytes)

/-- `fn get_hash_bytes` of src/lib.rs: UTF-8-validate the byte input
(`std::str::from_utf8`), then `calculate_hash` on the decoded string
(which has the same UTF-8 bytes). -/
def get_hash_bytes (password : List Nat) : Except ErrorKind (List Nat) :=
  if utf8Valid password then calculate_hash password else .error .invalidData

/-- A lowercase hexadecimal digit (`format!("{:02x}", b)` digit charset). -/
def hexDigitChar (n : Nat) : Char := if n < 10 then Char.ofNat (48 + n) else Char.ofNat (87 + n)

/-- `format!("{:02x}", b)`: two zero-padded lowercase hex digits, most
significant nibble first. -/
def byteHex (b : Nat) : List Char := [hexDigitChar (b / 16), hexDigitChar (b % 16)]

/-- The hex rendering of `get_hash_string`: each byte formatted with
`{:02x}`, all concatenated. -/
def hexString (bytes : List Nat) : String := String.mk ((bytes.map byteHex).flatten)

/-- `fn get_hash_string` of src/lib.rs, the string given by its UTF-8
bytes: `calculate_hash`, any error mapped to `InvalidData`, the digest
rendered as lowercase hex. -/
def get_hash_string (password : List Nat) : Except ErrorKind String :=
  match calculate_hash password with
  | .error _ => .error .invalidData
  | .ok data => .ok (hexString data)

/-! ### Spec-side definitions

`rotl32` renders the spec's glossary description of `rol` (a genuine cyclic
rotation by the shift amount mod 32), and the `spec...` definitions render
the compression engine exactly as §4.4 of the spec words it; they exist to
be compared with the code-derived definitions above. -/

/-- The spec's rotate-left: cyclic left rotation of a 32-bit value by
`shift % 32` bits, the top `shift % 32` bits re-entering at the bottom. -/
def rotl32 (val shift : Nat) : Nat :=
  (val % 2^(32 - shift % 32)) * 2^(shift % 32) + val / 2^(32 - shift % 32)

/-- The five accumulators as the spec describes them (no helper `g`). -/
structure SState where
  a : Nat
  b : Nat
  c : Nat
  d : Nat
  e : Nat
deriving Repr, DecidableEq

/-- Forget the helper variable `g` of the code's state. -/
def eraseG (s : HState) : SState := ⟨s.a, s.b, s.c, s.d, s.e⟩

/-- Spec §4.4 phase-1 mixing function `(b AND c) OR ((NOT b) AND d)`. -/
def specF1 (b c d : Nat) : Nat := (b &&& c) ||| ((b ^^^ 0xffffffff) &&& d)

/-- Spec §4.4 phase-2/4 mixing function `b XOR c XOR d`. -/
def specF2 (b c d : Nat) : Nat := b ^^^ c ^^^ d

/-- Spec §4.4 phase-3 mixing function
`(b AND c) OR (b AND d) OR (c AND d)`. -/
def specF3 (b c d : Nat) : Nat := (b &&& c) ||| (b &&& d) ||| (c &&& d)

/-- Spec §4.4 round:
`new_a = w + rotate_left(a,5) + e + f(b,c,d) + K` (mod 2^32) then
`e = d; d = c; c = rotate_left(b,30); b = a; a = new_a`. -/
def specRound (f : Nat → Nat → Nat → Nat) (kc : Nat) (s : SState) (w : Nat) : SState :=
  ⟨(w + rol s.a 5 + s.e + f s.b s.c s.d + kc) % 2^32, s.a, rol s.b 30, s.c, s.d⟩

/-- Run `n` spec rounds on sequential words starting at word `k`. -/
def specIter (r : SState → Nat → SState) (w : Nat → Nat) : Nat → Nat → SState → SState
  | _, 0, s => s
  | k, n+1, s => specIter r w (k+1) n (r s (w k))

/-- Spec §4.4 compression: the four 20-round phases with the additive
constants `0x5A827999, 0x6ED9EBA1, 0x8F1BBCDC, 0xCA62C1D6`, on the spec's
initial accumulator values. -/
def specCompress (w : Nat → Nat) : SState :=
  specIter (specRound specF2 0xCA62C1D6) w 60 20
    (specIter (specRound specF3 0x8F1BBCDC) w 40 20
      (specIter (specRound specF2 0x6ED9EBA1) w 20 20
        (specIter (specRound specF1 0x5A827999) w 0 20
          ⟨0x67452301, 0xefcdab89, 0x98badcfe, 0x10325476, 0xc3d2e1f0⟩)))

/-! ### Lemmas about `rol` -/

theorem and_31_eq_mod (x : Nat) : x &&& 31 = x % 32 := by
  have h := Nat.and_pow_two_sub_one_eq_mod x 5
  norm_num at h
  exact h

theorem rol_eq_rotl32 (val shift : Nat) (hv : val < 2^32) :
    rol val shift = rotl32 val shift := by
  have hslt : shift % 32 < 32 := Nat.mod_lt _ (by norm_num)
  rcases Nat.eq_zero_or_pos (shift % 32) with h0 | hpos
  · simp only [rol, rotl32, and_31_eq_mod, h0]
    norm_num
    have hv2 : val < 4294967296 := by norm_num at hv; exact hv
    rw [Nat.mod_eq_of_lt hv2, Nat.div_eq_of_lt hv2, Nat.or_self]
    omega
  · have h32s : (32 - shift % 32) &&& 31 = 32 - shift % 32 := by
      rw [and_31_eq_mod]; exact Nat.mod_eq_of_lt (by omega)
    simp only [rol, rotl32, and_31_eq_mod, h32s, Nat.shiftRight_eq_div_pow, Nat.shiftLeft_eq]
    have hpow : 2^(32 - shift % 32) * 2^(shift % 32) = 2^32 := by
      rw [← pow_add]; congr 1; omega
    have hmod : val * 2^(shift % 32) % 2^32 = (val % 2^(32 - shift % 32)) * 2^(shift % 32) := by
      rw [← hpow, Nat.mul_mod_mul_right]
    have hdiv : val / 2^(32 - shift % 32) < 2^(shift % 32) := by
      apply Nat.div_lt_of_lt_mul
      rw [Nat.mul_comm] at hpow ⊢
      rw [hpow]
      exact hv
    rw [hmod, Nat.or_comm, Nat.mul_comm, Nat.mul_add_lt_is_or hdiv, Nat.mul_comm]

/-- C9: the helper `rol(val, shift)` computes, for every 32-bit `val` and
every shift amount, the cyclic left rotation of `val` by `shift mod 32`
bits (bits shifted past the top re-entering at the bottom, as `rotl32`
renders it); in particular `rol(val, 0) = val` and `rol(val, 32) = val`. -/
theorem rol_rotates (val shift : Nat) (hv : val < 2^32) :
    rol val shift = rotl32 val shift ∧ rol val 0 = val ∧ rol val 32 = val := by
  refine ⟨rol_eq_rotl32 val shift hv, ?_, ?_⟩
  · rw [rol_eq_rotl32 val 0 hv]
    simp [rotl32]
    have hv2 : val < 4294967296 := by norm_num at hv; exact hv
    rw [Nat.mod_eq_of_lt hv2, Nat.div_eq_of_lt hv2]
    omega
  · rw [rol_eq_rotl32 val 32 hv]
    simp [rotl32]
    have hv2 : val < 4294967296 := by norm_num at hv; exact hv
    rw [Nat.mod_eq_of_lt hv2, Nat.div_eq_of_lt hv2]
    omega

/-- Witness for C9 at `val = 0xdeadbeef`, `shift = 7`. -/
theorem rol_rotates_witness :
    (0xdeadbeef : Nat) < 2^32 ∧
      (rol 0xdeadbeef 7 = rotl32 0xdeadbeef 7 ∧ rol 0xdeadbeef 0 = 0xdeadbeef ∧
        rol 0xdeadbeef 32 = 0xdeadbeef) :=
  ⟨by norm_num, rol_rotates 0xdeadbeef 7 (by norm_num)⟩

/-- C1: `get_hash_string` on "12345" (UTF-8 bytes 49..53) returns the hex
digest `460e0af6c1828a93fe887cbe103d6ca6ab97a0e4`, and `get_hash_bytes` on
the same raw bytes returns the 20-byte digest whose lowercase-hex
rendering is that same 40-character string. -/
theorem hash_known_vector :
    get_hash_string [49, 50, 51, 52, 53] = .ok "460e0af6c1828a93fe887cbe103d6ca6ab97a0e4" ∧
    get_hash_bytes [49, 50, 51, 52, 53] = .ok [0x46, 0x0e, 0x0a, 0xf6, 0xc1, 0x82, 0x8a, 0x93,
      0xfe, 0x88, 0x7c, 0xbe, 0x10, 0x3d, 0x6c, 0xa6, 0xab, 0x97, 0xa0, 0xe4] ∧
    hexString [0x46, 0x0e, 0x0a, 0xf6, 0xc1, 0x82, 0x8a, 0x93, 0xfe, 0x88, 0x7c, 0xbe, 0x10,
      0x3d, 0x6c, 0xa6, 0xab, 0x97, 0xa0, 0xe4] = "460e0af6c1828a93fe887cbe103d6ca6ab97a0e4" := by
  exact ⟨by decide, by decide, by decide⟩

/-! ### Lemmas about the expansion stage -/

theorem length_expandStep (w : List Nat) (i : Nat) : (expandStep w i).length = w.length := by
  simp [expandStep]

theorem length_expandN (w : List Nat) (n : Nat) : (expandN w n).length = w.length := by
  induction n with
  | zero => rfl
  | succ n ih => simp [expandN, length_expandStep, ih]

theorem length_loadBuffer (input : List Nat) : (loadBuffer input).length = 256 := by
  simp [loadBuffer]

theorem wordAt_set_ne (w : List Nat) (k j v : Nat) (h : j ≠ k) :
    wordAt (w.set k v) j = wordAt w j := by
  simp [wordAt, List.getD_eq_getElem?_getD, List.getElem?_set_ne (Ne.symm h)]

theorem wordAt_set_eq (w : List Nat) (k v : Nat) (h : k < w.length) :
    wordAt (w.set k v) k = v := by
  simp [wordAt, List.getD_eq_getElem?_getD, List.getElem?_set_self h]

theorem wordAt_expandN_stable (w : List Nat) (m n j : Nat) (hmn : m ≤ n) (hj : j < m + 16) :
    wordAt (expandN w n) j = wordAt (expandN w m) j := by
  induction n, hmn using Nat.le_induction with
  | base => rfl
  | succ n hmn ih =>
      simp only [expandN, expandStep]
      rw [wordAt_set_ne _ _ _ _ (by omega)]
      exact ih

theorem wordAt_expandN_write (w : List Nat) (hw : w.length = 256) (k n : Nat) (hk : k < 64)
    (hkn : k < n) :
    wordAt (expandN w n) (k+16) =
      rol 1 ((wordAt (expandN w k) k ^^^ wordAt (expandN w k) (k+8) ^^^
        wordAt (expandN w k) (k+2) ^^^ wordAt (expandN w k) (k+13)) &&& 0x1f) := by
  have h1 : wordAt (expandN w n) (k+16) = wordAt (expandN w (k+1)) (k+16) :=
    wordAt_expandN_stable w (k+1) n _ hkn (by omega)
  rw [h1]
  simp only [expandN, expandStep]
  exact wordAt_set_eq _ _ _ (by rw [length_expandN, hw]; omega)

theorem xor_swap_mid (a b c d : Nat) : a ^^^ b ^^^ c ^^^ d = a ^^^ c ^^^ b ^^^ d := by
  have h : a ^^^ b ^^^ c = a ^^^ c ^^^ b := by
    rw [Nat.xor_assoc, Nat.xor_assoc, Nat.xor_comm b c]
  rw [h]

/-- C2: for each expansion step `i < 64`, taken in ascending order, the
word at buffer index `i+16` after the expansion stage equals
`rol(1, (word[i] XOR word[i+2] XOR word[i+8] XOR word[i+13]) & 0x1F)`
where the four source words are read from the buffer as it stands after
the first `i` steps; and for `i ≥ 3` the source word at `i+13` is itself
the value written by step `i-3` (never an original input word). -/
theorem expansion_recurrence (input : List Nat) (i : Nat) (hi : i < 64) :
    wordAt (expandN (loadBuffer input) 64) (i+16) =
      rol 1 ((wordAt (expandN (loadBuffer input) i) i ^^^
        wordAt (expandN (loadBuffer input) i) (i+2) ^^^
        wordAt (expandN (loadBuffer input) i) (i+8) ^^^
        wordAt (expandN (loadBuffer input) i) (i+13)) &&& 0x1f) ∧
    (3 ≤ i → wordAt (expandN (loadBuffer input) i) (i+13) =
      rol 1 ((wordAt (expandN (loadBuffer input) (i-3)) (i-3) ^^^
        wordAt (expandN (loadBuffer input) (i-3)) (i-3+2) ^^^
        wordAt (expandN (loadBuffer input) (i-3)) (i-3+8) ^^^
        wordAt (expandN (loadBuffer input) (i-3)) (i-3+13)) &&& 0x1f)) := by
  constructor
  · rw [wordAt_expandN_write _ (length_loadBuffer input) i 64 hi hi,
      xor_swap_mid]
  · intro h3
    have hi13 : i + 13 = (i-3) + 16 := by omega
    rw [hi13, wordAt_expandN_write _ (length_loadBuffer input) (i-3) i (by omega) (by omega),
      xor_swap_mid]

/-- Witness for C2 at `input = [1,2,3]`, `i = 5`. -/
theorem expansion_recurrence_witness :
    (5 : Nat) < 64 ∧
    (wordAt (expandN (loadBuffer [1,2,3]) 64) (5+16) =
      rol 1 ((wordAt (expandN (loadBuffer [1,2,3]) 5) 5 ^^^
        wordAt (expandN (loadBuffer [1,2,3]) 5) (5+2) ^^^
        wordAt (expandN (loadBuffer [1,2,3]) 5) (5+8) ^^^
        wordAt (expandN (loadBuffer [1,2,3]) 5) (5+13)) &&& 0x1f) ∧
    (3 ≤ 5 → wordAt (expandN (loadBuffer [1,2,3]) 5) (5+13) =
      rol 1 ((wordAt (expandN (loadBuffer [1,2,3]) (5-3)) (5-3) ^^^
        wordAt (expandN (loadBuffer [1,2,3]) (5-3)) (5-3+2) ^^^
        wordAt (expandN (loadBuffer [1,2,3]) (5-3)) (5-3+8) ^^^
        wordAt (expandN (loadBuffer [1,2,3]) (5-3)) (5-3+13)) &&& 0x1f))) :=
  ⟨by norm_num, expansion_recurrence [1,2,3] 5 (by norm_num)⟩

/-! ### The digest depends only on the first 64 loaded bytes -/

theorem iterRounds_congr (r : HState → Nat → HState) (w1 w2 : Nat → Nat) :
    ∀ (n k : Nat) (s : HState), (∀ j, k ≤ j → j < k + n → w1 j = w2 j) →
      iterRounds r w1 k n s = iterRounds r w2 k n s := by
  intro n
  induction n with
  | zero => intro k s _; rfl
  | succ n ih =>
      intro k s h
      simp only [iterRounds]
      rw [h k (Nat.le_refl k) (by omega)]
      exact ih (k+1) _ (fun j hj1 hj2 => h j (by omega) (by omega))

theorem compress_congr (w1 w2 : Nat → Nat) (h : ∀ j, j < 80 → w1 j = w2 j) :
    compress w1 = compress w2 := by
  unfold compress
  rw [iterRounds_congr round1 w1 w2 20 0 initState (fun j hj1 hj2 => h j (by omega)),
    iterRounds_congr round2 w1 w2 20 20 _ (fun j hj1 hj2 => h j (by omega)),
    iterRounds_congr round3 w1 w2 20 40 _ (fun j hj1 hj2 => h j (by omega)),
    iterRounds_congr round4 w1 w2 20 60 _ (fun j hj1 hj2 => h j (by omega))]

theorem expandN_agree (w1 w2 : List Nat) (h1 : w1.length = 256) (h2 : w2.length = 256)
    (hag : ∀ j, j < 16 → wordAt w1 j = wordAt w2 j) :
    ∀ n, n ≤ 64 → ∀ j, j < 16 + n → wordAt (expandN w1 n) j = wordAt (expandN w2 n) j := by
  intro n
  induction n with
  | zero => intro _ j hj; exact hag j hj
  | succ n ih =>
      intro hn j hj
      simp only [expandN, expandStep]
      by_cases hj16 : j = n + 16
      · subst hj16
        rw [wordAt_set_eq _ _ _ (by rw [length_expandN, h1]; omega),
          wordAt_set_eq _ _ _ (by rw [length_expandN, h2]; omega),
          ih (by omega) n (by omega), ih (by omega) (n+8) (by omega),
          ih (by omega) (n+2) (by omega), ih (by omega) (n+13) (by omega)]
      · rw [wordAt_set_ne _ _ _ _ hj16, wordAt_set_ne _ _ _ _ hj16]
        exact ih (by omega) j (by omega)

theorem wordAt_loadBuffer (input : List Nat) (i : Nat) (hi : i < 256) :
    wordAt (loadBuffer input) i = loadWord input i := by
  simp [wordAt, loadBuffer, List.getD_eq_getElem?_getD, List.getElem?_range, hi]

theorem loadWord_agree (l1 l2 : List Nat) (h : ∀ j, j < 64 → padByte l1 j = padByte l2 j)
    (i : Nat) (hi : i < 16) : loadWord l1 i = loadWord l2 i := by
  unfold loadWord
  rw [h (4*i) (by omega), h (4*i+1) (by omega), h (4*i+2) (by omega), h (4*i+3) (by omega)]

theorem safe_hash_agree (l1 l2 : List Nat) (h : ∀ j, j < 64 → padByte l1 j = padByte l2 j) :
    safe_hash l1 = safe_hash l2 := by
  simp only [safe_hash]
  have hagree : ∀ j, j < 16 → wordAt (loadBuffer l1) j = wordAt (loadBuffer l2) j := by
    intro j hj
    rw [wordAt_loadBuffer _ _ (by omega), wordAt_loadBuffer _ _ (by omega)]
    exact loadWord_agree l1 l2 h j hj
  have hexp : ∀ j, j < 80 →
      wordAt (expandN (loadBuffer l1) 64) j = wordAt (expandN (loadBuffer l2) 64) j := by
    intro j hj
    exact expandN_agree _ _ (length_loadBuffer l1) (length_loadBuffer l2) hagree 64
      (Nat.le_refl 64) j (by omega)
  rw [compress_congr _ _ hexp]

/-- C6: two validated inputs (lowercased byte length between 1 and 1024)
whose zero-padded 64-byte prefixes agree produce identical digests: bytes
at offsets 64 and beyond have no effect. -/
theorem digest_depends_on_first_64_bytes (l1 l2 : List Nat)
    (hl1a : 1 ≤ l1.length) (hl1b : l1.length ≤ 1024)
    (hl2a : 1 ≤ l2.length) (hl2b : l2.length ≤ 1024)
    (h : ∀ j, j < 64 → padByte l1 j = padByte l2 j) :
    safe_hash l1 = safe_hash l2 :=
  safe_hash_agree l1 l2 h

/-- Witness for C6: a 1-byte input against a 65-byte input that agrees
with it on the zero-padded first 64 bytes and differs at offset 64. -/
theorem digest_depends_on_first_64_bytes_witness :
    ((1 : Nat) ≤ ([97] : List Nat).length ∧ ([97] : List Nat).length ≤ 1024 ∧
      (1 : Nat) ≤ (97 :: (List.replicate 63 0 ++ [42])).length ∧
      (97 :: (List.replicate 63 0 ++ [42])).length ≤ 1024 ∧
      (∀ j, j < 64 → padByte [97] j = padByte (97 :: (List.replicate 63 0 ++ [42])) j)) ∧
    safe_hash [97] = safe_hash (97 :: (List.replicate 63 0 ++ [42])) :=
  ⟨⟨by decide, by decide, by decide, by decide, by decide⟩,
    digest_depends_on_first_64_bytes _ _ (by decide) (by decide) (by decide) (by decide)
      (by decide)⟩

/-! ### ASCII inputs: the folding model is exact and bytewise -/

theorem toLowerByte_le (b : Nat) (hb : b ≤ 0x7F) : toLowerByte b ≤ 0x7F := by
  unfold toLowerByte
  split_ifs <;> omega

theorem toUpperByte_le (b : Nat) (hb : b ≤ 0x7F) : toUpperByte b ≤ 0x7F := by
  unfold toUpperByte
  split_ifs <;> omega

theorem lowerChunk_ascii (b : Nat) (rest : List Nat) (hb : b ≤ 0x7F) :
    lowerChunk (b :: rest) = ([toLowerByte b], rest) := by
  simp only [lowerChunk]
  split <;> simp_all

theorem upperChunk_ascii (b : Nat) (rest : List Nat) (hb : b ≤ 0x7F) :
    upperChunk (b :: rest) = ([toUpperByte b], rest) := by
  simp only [upperChunk]
  split <;> simp_all

theorem lowerFuel_ascii : ∀ (n : Nat) (l : List Nat), l.length ≤ n →
    (∀ b ∈ l, b ≤ 0x7F) → lowerFuel n l = l.map toLowerByte := by
  intro n
  induction n with
  | zero =>
      intro l hl _
      rcases l with _ | ⟨b, rest⟩
      · rfl
      · simp at hl
  | succ n ih =>
      intro l hl ha
      rcases l with _ | ⟨b, rest⟩
      · rfl
      · simp only [List.length_cons] at hl
        simp only [lowerFuel, lowerChunk_ascii b rest (ha b (List.mem_cons_self b rest)),
          List.map_cons]
        rw [ih rest (by omega) (fun x hx => ha x (List.mem_cons_of_mem b hx))]
        rfl

theorem upperFuel_ascii : ∀ (n : Nat) (l : List Nat), l.length ≤ n →
    (∀ b ∈ l, b ≤ 0x7F) → upperFuel n l = l.map toUpperByte := by
  intro n
  induction n with
  | zero =>
      intro l hl _
      rcases l with _ | ⟨b, rest⟩
      · rfl
      · simp at hl
  | succ n ih =>
      intro l hl ha
      rcases l with _ | ⟨b, rest⟩
      · rfl
      · simp only [List.length_cons] at hl
        simp only [upperFuel, upperChunk_ascii b rest (ha b (List.mem_cons_self b rest)),
          List.map_cons]
        rw [ih rest (by omega) (fun x hx => ha x (List.mem_cons_of_mem b hx))]
        rfl

theorem toLowercase_ascii (l : List Nat) (ha : ∀ b ∈ l, b ≤ 0x7F) :
    toLowercase l = l.map toLowerByte :=
  lowerFuel_ascii l.length l (Nat.le_refl _) ha

theorem toUppercase_ascii (l : List Nat) (ha : ∀ b ∈ l, b ≤ 0x7F) :
    toUppercase l = l.map toUpperByte :=
  upperFuel_ascii l.length l (Nat.le_refl _) ha

theorem utf8Chunk_ascii (b : Nat) (rest : List Nat) (hb : b ≤ 0x7F) :
    utf8Chunk (b :: rest) = some rest := by
  simp only [utf8Chunk]
  rw [if_pos hb]

theorem utf8ValidFuel_ascii : ∀ (n : Nat) (l : List Nat), l.length ≤ n →
    (∀ b ∈ l, b ≤ 0x7F) → utf8ValidFuel n l = true := by
  intro n
  induction n with
  | zero =>
      intro l hl _
      rcases l with _ | ⟨b, rest⟩
      · rfl
      · simp at hl
  | succ n ih =>
      intro l hl ha
      rcases l with _ | ⟨b, rest⟩
      · rfl
      · simp only [List.length_cons] at hl
        simp only [utf8ValidFuel, utf8Chunk_ascii b rest (ha b (List.mem_cons_self b rest))]
        exact ih rest (by omega) (fun x hx => ha x (List.mem_cons_of_mem b hx))

theorem utf8Valid_ascii (l : List Nat) (ha : ∀ b ∈ l, b ≤ 0x7F) : utf8Valid l = true :=
  utf8ValidFuel_ascii l.length l (Nat.le_refl _) ha

/-! ### Length-tail irrelevance (C7) -/

/-- Counterexample to C7 as stated, at two inputs.  First: S = "a" (one
byte, ≤ 64) and T = "a" satisfy every hypothesis, yet appending T changes
the hash, because T lands inside the first 64 bytes of the buffer.
Second: S = 21 × U+212A KELVIN SIGN ++ "a" is a valid input of exactly 64
bytes, but standard case-folding shrinks it to the 22-byte "k"*21 ++ "a",
so a 1-byte suffix T lands at buffer offset 22 and changes the hash even
though S itself fills 64 bytes. -/
theorem tail_irrelevance_counterexample :
    (utf8Valid [97] = true ∧ (1 : Nat) ≤ ([97] : List Nat).length ∧
      ([97] : List Nat).length ≤ 64 ∧ utf8Valid ([97] ++ [97]) = true ∧
      ([97] : List Nat).length + ([97] : List Nat).length ≤ 1024 ∧
      get_hash_bytes [97] ≠ get_hash_bytes ([97] ++ [97]) ∧
      get_hash_string [97] ≠ get_hash_string ([97] ++ [97])) ∧
    (utf8Valid kelvin21a = true ∧ kelvin21a.length = 64 ∧ kelvin21a.length ≤ 64 ∧
      utf8Valid (kelvin21a ++ [98]) = true ∧
      kelvin21a.length + ([98] : List Nat).length ≤ 1024 ∧
      (toLowercase kelvin21a).length = 22 ∧
      get_hash_bytes kelvin21a ≠ get_hash_bytes (kelvin21a ++ [98]) ∧
      get_hash_string kelvin21a ≠ get_hash_string (kelvin21a ++ [98])) :=
  ⟨⟨by decide, by decide, by decide, by decide, by decide, by decide, by decide⟩,
    ⟨by decide, by decide, by decide, by decide, by decide, by decide, by decide, by decide⟩⟩

/-- C7 (amended): for any valid ASCII input S (every byte at most 0x7F,
so standard case-folding is bytewise and length-preserving) of byte
length exactly 64 and any ASCII suffix T with `len(S)+len(T) ≤ 1024` such
that S++T is valid, the hash of S equals the hash of S++T (the appended
bytes start at buffer offset 64). -/
theorem tail_irrelevance_amended (S T : List Nat)
    (hvS : utf8Valid S = true) (hvST : utf8Valid (S ++ T) = true)
    (haS : ∀ b ∈ S, b ≤ 0x7F) (haT : ∀ b ∈ T, b ≤ 0x7F)
    (hlen : S.length = 64) (hlenT : S.length + T.length ≤ 1024) :
    get_hash_bytes S = get_hash_bytes (S ++ T) ∧
    get_hash_string S = get_hash_string (S ++ T) := by
  have haST : ∀ b ∈ S ++ T, b ≤ 0x7F := by
    intro b hb
    rcases List.mem_append.mp hb with h | h
    · exact haS b h
    · exact haT b h
  have hS : toLowercase S = S.map toLowerByte := toLowercase_ascii S haS
  have hST : toLowercase (S ++ T) = S.map toLowerByte ++ T.map toLowerByte := by
    rw [toLowercase_ascii _ haST, List.map_append]
  have hlS : (toLowercase S).length = 64 := by
    rw [hS, List.length_map, hlen]
  have hlT : (toLowercase (S ++ T)).length = S.length + T.length := by
    rw [hST]
    simp
  have hhash : safe_hash (toLowercase S) = safe_hash (toLowercase (S ++ T)) := by
    rw [hS, hST]
    apply safe_hash_agree
    intro j hj
    unfold padByte
    exact (List.getD_append _ _ _ _ (by rw [List.length_map]; omega)).symm
  have hcalc1 : calculate_hash S = .ok (safe_hash (toLowercase S)) := by
    simp only [calculate_hash]
    rw [if_neg (by omega)]
  have hcalc2 : calculate_hash (S ++ T) = .ok (safe_hash (toLowercase (S ++ T))) := by
    simp only [calculate_hash]
    rw [if_neg (by omega)]
  constructor
  · simp [get_hash_bytes, hvS, hvST, hcalc1, hcalc2, hhash]
  · simp [get_hash_string, hcalc1, hcalc2, hhash]

/-- Witness for the amended C7: an ASCII S of 64 bytes, T one byte. -/
theorem tail_irrelevance_amended_witness :
    (utf8Valid (List.replicate 64 97) = true ∧
      utf8Valid (List.replicate 64 97 ++ [98]) = true ∧
      (∀ b ∈ (List.replicate 64 97 : List Nat), b ≤ 0x7F) ∧
      (∀ b ∈ ([98] : List Nat), b ≤ 0x7F) ∧
      (List.replicate 64 97 : List Nat).length = 64 ∧
      (List.replicate 64 97 : List Nat).length + ([98] : List Nat).length ≤ 1024) ∧
    (get_hash_bytes (List.replicate 64 97) = get_hash_bytes (List.replicate 64 97 ++ [98]) ∧
      get_hash_string (List.replicate 64 97) = get_hash_string (List.replicate 64 97 ++ [98])) :=
  ⟨⟨by decide, by decide, by decide, by decide, by decide, by decide⟩,
    tail_irrelevance_amended _ _ (by decide) (by decide) (by decide) (by decide) (by decide)
      (by decide)⟩

/-! ### The compression loops refine the spec's compression engine -/

theorem add32_chain (a b c d e : Nat) :
    add32 (add32 (add32 (add32 a b) c) d) e = (a + b + c + d + e) % 2^32 := by
  simp [add32, Nat.mod_add_mod]

theorem sub32_add32_chain (a b c d K C : Nat) (h : 2^32 - C = K) :
    sub32 (add32 (add32 (add32 a b) c) d) C = (a + b + c + d + K) % 2^32 := by
  unfold sub32 add32
  rw [h]
  simp [Nat.mod_add_mod]

theorem xor_rev (a b c : Nat) : a ^^^ b ^^^ c = c ^^^ b ^^^ a := by
  rw [Nat.xor_comm a b, Nat.xor_assoc, Nat.xor_comm a c, ← Nat.xor_assoc, Nat.xor_comm b c]

theorem round1_spec (s : HState) (w : Nat) :
    eraseG (round1 s w) = specRound specF1 0x5A827999 (eraseG s) w := by
  simp only [round1, specRound, eraseG, specF1, add32_chain]

theorem round1_g (s : HState) (w : Nat) : (round1 s w).g = (round1 s w).a := by
  simp [round1]

theorem round2_spec (s : HState) (w : Nat) (hg : s.g = s.a) :
    eraseG (round2 s w) = specRound specF2 0x6ED9EBA1 (eraseG s) w ∧
      (round2 s w).g = (round2 s w).a := by
  refine ⟨?_, by simp [round2]⟩
  have hx : s.d ^^^ s.c ^^^ s.b = s.b ^^^ s.c ^^^ s.d := xor_rev s.d s.c s.b
  simp only [round2, specRound, eraseG, specF2, add32_chain, hg, hx]
  simp only [SState.mk.injEq, and_true, true_and]
  have hsum : (s.b ^^^ s.c ^^^ s.d) + s.e + rol s.a 5 + w + 0x6ED9EBA1
      = w + rol s.a 5 + s.e + (s.b ^^^ s.c ^^^ s.d) + 0x6ED9EBA1 := by omega
  exact congrArg (fun x => x % 2^32) hsum

theorem round3_spec (s : HState) (w : Nat) (hg : s.g = s.a) :
    eraseG (round3 s w) = specRound specF3 0x8F1BBCDC (eraseG s) w ∧
      (round3 s w).g = (round3 s w).a := by
  refine ⟨?_, by simp [round3]⟩
  have hf : (s.c &&& s.b) ||| (s.d &&& s.c) ||| (s.d &&& s.b)
      = (s.b &&& s.c) ||| (s.b &&& s.d) ||| (s.c &&& s.d) := by
    rw [Nat.and_comm s.c s.b, Nat.and_comm s.d s.c, Nat.and_comm s.d s.b,
      Nat.or_assoc, Nat.or_comm (s.c &&& s.d) (s.b &&& s.d), ← Nat.or_assoc]
  simp only [round3, specRound, eraseG, specF3, hg,
    sub32_add32_chain _ _ _ _ 0x8F1BBCDC 0x70E44324 (by norm_num), hf]

theorem round4_spec (s : HState) (w : Nat) (hg : s.g = s.a) :
    eraseG (round4 s w) = specRound specF2 0xCA62C1D6 (eraseG s) w ∧
      (round4 s w).g = (round4 s w).a := by
  refine ⟨?_, by simp [round4]⟩
  have hx : s.d ^^^ s.c ^^^ s.b = s.b ^^^ s.c ^^^ s.d := xor_rev s.d s.c s.b
  simp only [round4, specRound, eraseG, specF2, hg,
    sub32_add32_chain _ _ _ _ 0xCA62C1D6 0x359d3e2a (by norm_num), hx]
  simp only [SState.mk.injEq, and_true, true_and]
  have hsum : (s.b ^^^ s.c ^^^ s.d) + s.e + rol s.a 5 + w + 0xCA62C1D6
      = w + rol s.a 5 + s.e + (s.b ^^^ s.c ^^^ s.d) + 0xCA62C1D6 := by omega
  exact congrArg (fun x => x % 2^32) hsum

theorem iter_erase (r : HState → Nat → HState) (rs : SState → Nat → SState) (w : Nat → Nat)
    (h : ∀ s x, eraseG (r s x) = rs (eraseG s) x) :
    ∀ n k (s : HState), eraseG (iterRounds r w k n s) = specIter rs w k n (eraseG s) := by
  intro n
  induction n with
  | zero => intro k s; rfl
  | succ n ih =>
      intro k s
      simp only [iterRounds, specIter]
      rw [← h s (w k)]
      exact ih (k+1) _

theorem iter_g (r : HState → Nat → HState) (w : Nat → Nat)
    (h : ∀ s x, (r s x).g = (r s x).a) :
    ∀ n k (s : HState), 1 ≤ n →
      (iterRounds r w k n s).g = (iterRounds r w k n s).a := by
  intro n
  induction n with
  | zero => intro k s hn; omega
  | succ n ih =>
      intro k s _
      rcases Nat.eq_zero_or_pos n with h0 | hpos
      · subst h0
        simp only [iterRounds]
        exact h s (w k)
      · simp only [iterRounds]
        exact ih (k+1) _ hpos

theorem iter_spec_cond (r : HState → Nat → HState) (rs : SState → Nat → SState) (w : Nat → Nat)
    (h : ∀ s x, s.g = s.a → eraseG (r s x) = rs (eraseG s) x ∧ (r s x).g = (r s x).a) :
    ∀ n k (s : HState), s.g = s.a →
      eraseG (iterRounds r w k n s) = specIter rs w k n (eraseG s) ∧
        (iterRounds r w k n s).g = (iterRounds r w k n s).a := by
  intro n
  induction n with
  | zero => intro k s hg; exact ⟨rfl, hg⟩
  | succ n ih =>
      intro k s hg
      simp only [iterRounds, specIter]
      have hr := h s (w k) hg
      rw [← hr.1]
      exact ih (k+1) _ hr.2

/-- C3: the code's compression (helper variable `g` standing in for `a` in
rounds 20..79, wrapping subtraction of `0x70E44324` and `0x359d3e2a`, the
code's operand orders) computes exactly the spec's §4.4 compression engine:
initial accumulators `(0x67452301, 0xEFCDAB89, 0x98BADCFE, 0x10325476,
0xC3D2E1F0)`, 80 sequential words, and in every round
`new_a = w + rotate_left(a,5) + e + f(b,c,d) + K (mod 2^32)` followed by
`e=d; d=c; c=rotate_left(b,30); b=a; a=new_a`, with the four phase
functions and the added constants `0x5A827999, 0x6ED9EBA1, 0x8F1BBCDC,
0xCA62C1D6`. -/
theorem compression_refines_spec (w : Nat → Nat) :
    eraseG (compress w) = specCompress w := by
  unfold compress specCompress
  have e1 := iter_erase round1 (specRound specF1 0x5A827999) w round1_spec 20 0 initState
  have g1 := iter_g round1 w round1_g 20 0 initState (by omega)
  have h2 := iter_spec_cond round2 (specRound specF2 0x6ED9EBA1) w round2_spec 20 20
    (iterRounds round1 w 0 20 initState) g1
  have h3 := iter_spec_cond round3 (specRound specF3 0x8F1BBCDC) w round3_spec 20 40
    (iterRounds round2 w 20 20 (iterRounds round1 w 0 20 initState)) h2.2
  have h4 := iter_spec_cond round4 (specRound specF2 0xCA62C1D6) w round4_spec 20 60
    (iterRounds round3 w 40 20 (iterRounds round2 w 20 20 (iterRounds round1 w 0 20 initState)))
    h3.2
  rw [h4.1, h3.1, h2.1, e1]
  rfl

/-! ### Output shape (C4) and input validation (C5) -/

theorem word_be_bytes_lt (x : Nat) : ∀ b ∈ word_be_bytes x, b < 256 := by
  intro b hb
  simp only [word_be_bytes, List.mem_cons, List.not_mem_nil, or_false] at hb
  rcases hb with h | h | h | h <;> subst h <;> exact Nat.mod_lt _ (by norm_num)

theorem safe_hash_length (l : List Nat) : (safe_hash l).length = 20 := by
  simp [safe_hash, word_be_bytes]

theorem safe_hash_bytes_lt (l : List Nat) : ∀ b ∈ safe_hash l, b < 256 := by
  intro b hb
  simp only [safe_hash, List.mem_append] at hb
  rcases hb with (((h | h) | h) | h) | h <;> exact word_be_bytes_lt _ b h

theorem hexDigitChar_charset : ∀ n, n < 16 →
    (48 ≤ (hexDigitChar n).toNat ∧ (hexDigitChar n).toNat ≤ 57) ∨
      (97 ≤ (hexDigitChar n).toNat ∧ (hexDigitChar n).toNat ≤ 102) := by
  decide

theorem hexString_length (r : List Nat) : (hexString r).length = 2 * r.length := by
  simp only [hexString, String.length, List.length_flatten, List.map_map]
  induction r with
  | nil => rfl
  | cons b t ih =>
      simp only [List.map_cons, List.sum_cons, ih]
      simp [byteHex]
      omega

theorem hexString_data (r : List Nat) :
    (hexString r).data = (r.map (fun b => [hexDigitChar (b / 16), hexDigitChar (b % 16)])).flatten := rfl

theorem calculate_hash_ok (p r : List Nat) (h : calculate_hash p = .ok r) :
    r = safe_hash (toLowercase p) := by
  simp only [calculate_hash] at h
  split at h
  · exact absurd h (by simp)
  · exact (Except.ok.injEq _ _ ▸ h).symm

/-- C4: the output formatter adds (mod 2^32) each final accumulator to its
initialization constant and serializes `a,b,c,d,e` in that order as four
big-endian bytes each; every successful `get_hash_bytes` result is exactly
20 bytes (each a value below 256), and every successful `get_hash_string`
result is exactly 40 lowercase hexadecimal characters, two zero-padded hex
digits per byte with the most significant nibble first. -/
theorem output_shape (p : List Nat) :
    (∀ l, safe_hash l =
      word_be_bytes (add32 (compress (wordAt (expandN (loadBuffer l) 64))).a 0x67452301) ++
        word_be_bytes (add32 (compress (wordAt (expandN (loadBuffer l) 64))).b 0xefcdab89) ++
          word_be_bytes (add32 (compress (wordAt (expandN (loadBuffer l) 64))).c 0x98badcfe) ++
            word_be_bytes (add32 (compress (wordAt (expandN (loadBuffer l) 64))).d 0x10325476) ++
              word_be_bytes (add32 (compress (wordAt (expandN (loadBuffer l) 64))).e 0xc3d2e1f0)) ∧
    (∀ r, get_hash_bytes p = .ok r → r.length = 20 ∧ ∀ b ∈ r, b < 256) ∧
    (∀ h, get_hash_string p = .ok h → h.length = 40 ∧
      (∃ r, calculate_hash p = .ok r ∧ r.length = 20 ∧ h = hexString r ∧
        h.data = (r.map (fun b => [hexDigitChar (b / 16), hexDigitChar (b % 16)])).flatten) ∧
      (∀ ch ∈ h.data,
        (48 ≤ ch.toNat ∧ ch.toNat ≤ 57) ∨ (97 ≤ ch.toNat ∧ ch.toNat ≤ 102))) := by
  refine ⟨fun l => rfl, ?_, ?_⟩
  · intro r hr
    have hc : calculate_hash p = .ok r := by
      simp only [get_hash_bytes] at hr
      split at hr
      · exact hr
      · exact absurd hr (by simp)
    have := calculate_hash_ok p r hc
    subst this
    exact ⟨safe_hash_length _, safe_hash_bytes_lt _⟩
  · intro h hh
    simp only [get_hash_string] at hh
    split at hh
    · exact absurd hh (by simp)
    · rename_i r hc
      have hr : r = safe_hash (toLowercase p) := calculate_hash_ok p r hc
      have hr20 : r.length = 20 := by rw [hr]; exact safe_hash_length _
      have hrb : ∀ b ∈ r, b < 256 := by rw [hr]; exact safe_hash_bytes_lt _
      have hhex : h = hexString r := by
        have := hh
        simp only [Except.ok.injEq] at this
        exact this.symm
      subst hhex
      refine ⟨by rw [hexString_length, hr20], ⟨r, hc, hr20, rfl, hexString_data r⟩, ?_⟩
      intro ch hch
      rw [hexString_data] at hch
      simp only [List.mem_flatten, List.mem_map] at hch
      obtain ⟨sub, ⟨b, hbr, hsub⟩, hchsub⟩ := hch
      subst hsub
      have hb256 : b < 256 := hrb b hbr
      simp only [List.mem_cons, List.not_mem_nil, or_false] at hchsub
      rcases hchsub with h1 | h1 <;> subst h1
      · exact hexDigitChar_charset (b / 16) (by omega)
      · exact hexDigitChar_charset (b % 16) (by omega)

/-- C5: `get_hash_bytes` rejects every non-UTF-8 byte sequence with
`InvalidData`; both entry points reject a lowercased byte length of 0 or
above 1024 with `InvalidData`; and every valid-text input whose lowercased
byte length lies in 1..=1024 succeeds. -/
theorem input_validation (p : List Nat) :
    (utf8Valid p = false → get_hash_bytes p = .error .invalidData) ∧
    ((toLowercase p).length = 0 ∨ 1024 < (toLowercase p).length →
      get_hash_bytes p = .error .invalidData ∧ get_hash_string p = .error .invalidData) ∧
    (utf8Valid p = true → 1 ≤ (toLowercase p).length → (toLowercase p).length ≤ 1024 →
      (get_hash_bytes p).isOk = true ∧ (get_hash_string p).isOk = true) := by
  refine ⟨?_, ?_, ?_⟩
  · intro hv
    simp [get_hash_bytes, hv]
  · intro hlen
    have hc : calculate_hash p = .error .invalidData := by
      simp only [calculate_hash]
      rw [if_pos (by omega)]
    constructor
    · by_cases hv : utf8Valid p <;> simp [get_hash_bytes, hv, hc]
    · simp [get_hash_string, hc]
  · intro hv h1 h2
    have hc : calculate_hash p = .ok (safe_hash (toLowercase p)) := by
      simp only [calculate_hash]
      rw [if_neg (by omega)]
    constructor
    · simp [get_hash_bytes, hv, hc, Except.isOk, Except.toBool]
    · simp [get_hash_string, hc, Except.isOk, Except.toBool]

/-- Witness for C5: a non-UTF-8 input, the empty input, an overlong input
(1025 bytes), a 1-byte input, and a 1024-byte input. -/
theorem input_validation_witness :
    (get_hash_bytes [0xFF] = .error .invalidData) ∧
    (get_hash_bytes [] = .error .invalidData ∧ get_hash_string [] = .error .invalidData) ∧
    (get_hash_bytes (List.replicate 1025 97) = .error .invalidData ∧
      get_hash_string (List.replicate 1025 97) = .error .invalidData) ∧
    ((get_hash_bytes [49]).isOk = true ∧ (get_hash_string [49]).isOk = true) ∧
    ((get_hash_bytes (List.replicate 1024 97)).isOk = true ∧
      (get_hash_string (List.replicate 1024 97)).isOk = true) :=
  ⟨(input_validation [0xFF]).1 (by decide),
    (input_validation []).2.1 (by decide),
    (input_validation (List.replicate 1025 97)).2.1 (by decide),
    (input_validation [49]).2.2 (by decide) (by decide) (by decide),
    (input_validation (List.replicate 1024 97)).2.2 (by decide) (by decide) (by decide)⟩

/-! ### Case invariance (C8) and entry-point coherence (C10) -/

theorem toLowerByte_toUpperByte (b : Nat) : toLowerByte (toUpperByte b) = toLowerByte b := by
  unfold toLowerByte toUpperByte
  split_ifs <;> omega

theorem toLowerByte_idem (b : Nat) : toLowerByte (toLowerByte b) = toLowerByte b := by
  unfold toLowerByte
  split_ifs <;> omega

/-- Counterexample to C8 as stated: S = "ß" (bytes C3 9F) is a valid
input; its uppercase form "SS" has the same byte length 2, so the claim's
case-folding-preserves-length hypothesis holds — yet the code hashes the
lowercased forms "ß" and "ss", whose digests differ. -/
theorem case_invariance_counterexample :
    utf8Valid [0xC3, 0x9F] = true ∧
    (toUppercase [0xC3, 0x9F]).length = ([0xC3, 0x9F] : List Nat).length ∧
    (toLowercase [0xC3, 0x9F]).length = ([0xC3, 0x9F] : List Nat).length ∧
    toUppercase [0xC3, 0x9F] = [0x53, 0x53] ∧
    get_hash_bytes [0xC3, 0x9F] ≠ get_hash_bytes (toUppercase [0xC3, 0x9F]) ∧
    get_hash_string [0xC3, 0x9F] ≠ get_hash_string (toUppercase [0xC3, 0x9F]) :=
  ⟨by decide, by decide, by decide, by decide, by decide, by decide⟩

/-- C8 (amended): case invariance for ASCII inputs — for every valid
input S all of whose bytes are ASCII (where standard case-folding is
bytewise, so the byte length never changes), both entry points produce
the same result on S, on S uppercased, and on S lowercased.  For
non-ASCII S the equality with S.upper() can fail even when folding
preserves the byte length (see the ß counterexample). -/
theorem case_invariance_ascii (s : List Nat) (hv : utf8Valid s = true)
    (ha : ∀ b ∈ s, b ≤ 0x7F) :
    (toUppercase s).length = s.length ∧ (toLowercase s).length = s.length ∧
    get_hash_bytes s = get_hash_bytes (toUppercase s) ∧
    get_hash_bytes s = get_hash_bytes (toLowercase s) ∧
    get_hash_string s = get_hash_string (toUppercase s) ∧
    get_hash_string s = get_hash_string (toLowercase s) := by
  have hu : toUppercase s = s.map toUpperByte := toUppercase_ascii s ha
  have hl : toLowercase s = s.map toLowerByte := toLowercase_ascii s ha
  have hau : ∀ b ∈ s.map toUpperByte, b ≤ 0x7F := by
    intro b hb
    obtain ⟨x, hx, rfl⟩ := List.mem_map.mp hb
    exact toUpperByte_le x (ha x hx)
  have hal : ∀ b ∈ s.map toLowerByte, b ≤ 0x7F := by
    intro b hb
    obtain ⟨x, hx, rfl⟩ := List.mem_map.mp hb
    exact toLowerByte_le x (ha x hx)
  have h1 : toLowercase (toUppercase s) = toLowercase s := by
    rw [hu, toLowercase_ascii _ hau, hl, List.map_map]
    apply List.map_congr_left
    intro a _
    simp only [Function.comp_apply]
    exact toLowerByte_toUpperByte a
  have h2 : toLowercase (toLowercase s) = toLowercase s := by
    rw [hl, toLowercase_ascii _ hal, List.map_map]
    apply List.map_congr_left
    intro a _
    simp only [Function.comp_apply]
    exact toLowerByte_idem a
  have hcu : calculate_hash (toUppercase s) = calculate_hash s := by
    simp only [calculate_hash, h1]
  have hcl : calculate_hash (toLowercase s) = calculate_hash s := by
    simp only [calculate_hash, h2]
  have hvu : utf8Valid (toUppercase s) = true := by
    rw [hu]
    exact utf8Valid_ascii _ hau
  have hvl : utf8Valid (toLowercase s) = true := by
    rw [hl]
    exact utf8Valid_ascii _ hal
  refine ⟨by rw [hu, List.length_map], by rw [hl, List.length_map], ?_, ?_, ?_, ?_⟩
  · simp [get_hash_bytes, hv, hvu, hcu]
  · simp [get_hash_bytes, hv, hvl, hcl]
  · simp [get_hash_string, hcu]
  · simp [get_hash_string, hcl]

/-- Witness for the amended C8 on the ASCII input "aB". -/
theorem case_invariance_ascii_witness :
    (utf8Valid [97, 66] = true ∧ (∀ b ∈ ([97, 66] : List Nat), b ≤ 0x7F)) ∧
    ((toUppercase [97, 66]).length = ([97, 66] : List Nat).length ∧
      (toLowercase [97, 66]).length = ([97, 66] : List Nat).length ∧
      get_hash_bytes [97, 66] = get_hash_bytes (toUppercase [97, 66]) ∧
      get_hash_bytes [97, 66] = get_hash_bytes (toLowercase [97, 66]) ∧
      get_hash_string [97, 66] = get_hash_string (toUppercase [97, 66]) ∧
      get_hash_string [97, 66] = get_hash_string (toLowercase [97, 66])) :=
  ⟨⟨by decide, by decide⟩, case_invariance_ascii _ (by decide) (by decide)⟩

/-- C10: for every string (valid UTF-8 byte sequence), `get_hash_string`
succeeds exactly when `get_hash_bytes` succeeds, both failures are
`InvalidData`, and on success the 40-character string is exactly the
lowercase-hex encoding of the 20-byte result. -/
theorem entry_point_coherence (s : List Nat) (hv : utf8Valid s = true) :
    ((get_hash_string s).isOk = (get_hash_bytes s).isOk) ∧
    (∀ r, get_hash_bytes s = .ok r → get_hash_string s = .ok (hexString r)) ∧
    ((get_hash_bytes s).isOk = false →
      get_hash_bytes s = .error .invalidData ∧ get_hash_string s = .error .invalidData) := by
  have hb : get_hash_bytes s = calculate_hash s := by simp [get_hash_bytes, hv]
  rcases hc : calculate_hash s with e | r2
  · cases e
    refine ⟨?_, ?_, ?_⟩ <;> simp [get_hash_string, hb, hc, Except.isOk, Except.toBool]
  · refine ⟨?_, ?_, ?_⟩ <;> simp [get_hash_string, hb, hc, Except.isOk, Except.toBool]

/-- Witness for C10 at the input "12345". -/
theorem entry_point_coherence_witness :
    utf8Valid [49, 50, 51, 52, 53] = true ∧
    (((get_hash_string [49, 50, 51, 52, 53]).isOk = (get_hash_bytes [49, 50, 51, 52, 53]).isOk) ∧
      (∀ r, get_hash_bytes [49, 50, 51, 52, 53] = .ok r →
        get_hash_string [49, 50, 51, 52, 53] = .ok (hexString r)) ∧
      ((get_hash_bytes [49, 50, 51, 52, 53]).isOk = false →
        get_hash_bytes [49, 50, 51, 52, 53] = .error .invalidData ∧
          get_hash_string [49, 50, 51, 52, 53] = .error .invalidData)) :=
  ⟨by decide, entry_point_coherence _ (by decide)⟩

/-- Witness for C4 at the input "12345". -/
theorem output_shape_witness :
    get_hash_string [49, 50, 51, 52, 53] = .ok "460e0af6c1828a93fe887cbe103d6ca6ab97a0e4" ∧
    (("460e0af6c1828a93fe887cbe103d6ca6ab97a0e4" : String).length = 40 ∧
      (∃ r, calculate_hash [49, 50, 51, 52, 53] = .ok r ∧ r.length = 20 ∧
        "460e0af6c1828a93fe887cbe103d6ca6ab97a0e4" = hexString r ∧
        ("460e0af6c1828a93fe887cbe103d6ca6ab97a0e4" : String).data =
          (r.map (fun b => [hexDigitChar (b / 16), hexDigitChar (b % 16)])).flatten) ∧
      (∀ ch ∈ ("460e0af6c1828a93fe887cbe103d6ca6ab97a0e4" : String).data,
        (48 ≤ ch.toNat ∧ ch.toNat ≤ 57) ∨ (97 ≤ ch.toNat ∧ ch.toNat ≤ 102))) :=
  ⟨by decide, (output_shape [49, 50, 51, 52, 53]).2.2 _ (by decide)⟩

end PvpgnHash
